import Mathlib

/-!
Verification of the peer registry and discovery engine of `lisk_argus`
(`src/peers/PeerManager.ts`).

The TypeScript `PeerManager` is embedded shallowly:

* the JS `Map<string, Peer>` (`this._peers`), whose iteration order is
  insertion order, is an insertion-ordered association list
  `List (String × Peer)`;
* the external `Peer` objects of `libargus` are records holding the fields
  this manager reads (options, last status, HTTP flag, inbound-connection
  flag); their further-peer lists (`peer.peers`), which the transport fills,
  enter `updatePeers` as an oracle `env : String → List (Option PeerInfo)`
  giving the list each peer's connection currently reports;
* `_.shuffle` in `getBestHTTPPeer` is nondeterministic, so the scan is a
  function of the already-shuffled list, quantified over permutations of the
  registry's values where a claim needs the registry;
* `semver.satisfies (·, config.minVersion)` is the external version policy,
  kept abstract as a boolean field of the configuration;
* heights are natural numbers (the spec declares them non-negative).
-/

namespace LiskArgus

/-- The libargus `PeerInfo` shape: the candidate `addPeer` receives. -/
structure PeerInfo where
  ip : String
  wsPort : Nat
  httpPort : Nat
  version : String
  nonce : String
deriving DecidableEq, Repr

/-- Last reported status of a peer (height and broadhash). -/
structure PeerStatus where
  height : Nat
  broadhash : String
deriving DecidableEq, Repr

/-- The options record the `Peer` constructor stores
(`{ip, wsPort, httpPort, nethash, nonce}`). -/
structure PeerOptions where
  ip : String
  wsPort : Nat
  httpPort : Nat
  nethash : String
  nonce : String
deriving DecidableEq, Repr

/-- Modelled from the spec: the external libargus `Peer` object (not under
`src/`), reduced to the fields `PeerManager` reads — its options, its last
reported `PeerStatus` (absent until the first status update arrives), its
HTTP-capability flag, and its inbound websocket-connection flag. -/
structure Peer where
  options : PeerOptions
  status : Option PeerStatus
  httpActive : Bool
  wsServerConnected : Bool
deriving DecidableEq, Repr

/-- The mutable state of one `PeerManager`: the registry `_peers` plus the
network-best tracker `bestHeight` / `bestBroadhash`. -/
structure ManagerState where
  peers : List (String × Peer)
  bestHeight : Nat
  bestBroadhash : String
deriving DecidableEq, Repr

/-- Construction-time configuration of the manager: `config.nethash`,
the own node's nonce (`ownNode.nonce`), and the version policy
`fun v => semver.satisfies v config.minVersion` kept abstract. -/
structure Config where
  nethash : String
  ownNonce : String
  minVersionOK : String → Bool

/-- A status-update payload as `handleStatusUpdate` reads it: a nonce (the
empty string standing for a JS-falsy / absent nonce) plus height and
broadhash. -/
structure StatusUpdate where
  nonce : String
  height : Nat
  broadhash : String
deriving DecidableEq, Repr

/-- Substring containment on character lists: `containsSub needle hay` is
true exactly when `needle` occurs contiguously in `hay`; this is
`hay.indexOf(needle) !== -1` of JS. -/
def containsSub (needle : List Char) : List Char → Bool
  | [] => needle.isEmpty
  | c :: rest => needle.isPrefixOf (c :: rest) || containsSub needle rest

/-- The check `peer.nonce.indexOf("monitoring") !== -1` of `addPeer`. -/
def containsMonitoring (s : String) : Bool :=
  containsSub ("monitoring".data) s.data

/-- The `Peer` record built by `addPeer`'s
`new Peer({ip, wsPort, httpPort, nethash, nonce: peer.nonce}, this.ownNode)`.
Modelled from the spec: the fresh connection starts with no reported status
("absent until first status update arrives"); the HTTP and inbound flags
start unset. -/
def mkPeer (cfg : Config) (p : PeerInfo) : Peer :=
  { options :=
      { ip := p.ip
        wsPort := p.wsPort
        httpPort := p.httpPort
        nethash := cfg.nethash
        nonce := p.nonce }
    status := none
    httpActive := false
    wsServerConnected := false }

/-- The lookup `this._peers.has(n)` on the association-list registry. -/
def hasKeyB (st : ManagerState) (n : String) : Bool :=
  st.peers.any (fun kv => kv.1 == n)

/-- The method `PeerManager.addPeer`: rejects own nonce and monitoring nonces, then
already-present nonces, then versions failing the policy; otherwise inserts
a fresh `Peer` keyed by the candidate's nonce. All rejections are silent
no-ops. -/
def addPeer (cfg : Config) (st : ManagerState) (p : PeerInfo) : ManagerState :=
  if p.nonce == cfg.ownNonce || containsMonitoring p.nonce then st
  else if hasKeyB st p.nonce then st
  else if !cfg.minVersionOK p.version then st
  else { st with peers := st.peers ++ [(p.nonce, mkPeer cfg p)] }

/-- The height read `peer.status ? peer.status.height : 0`. -/
def peerHeight (p : Peer) : Nat :=
  match p.status with
  | some s => s.height
  | none => 0

/-- One iteration of the best-height loop of `updatePeers`: if the peer has
a status whose height strictly exceeds the running `bestHeight`, both
`bestHeight` and `bestBroadhash` are replaced. -/
def bestStep (acc : ManagerState) (kv : String × Peer) : ManagerState :=
  match kv.2.status with
  | some s =>
      if s.height > acc.bestHeight then
        { acc with bestHeight := s.height, bestBroadhash := s.broadhash }
      else acc
  | none => acc

/-- The best-height recomputation pass of `updatePeers` (lines 87–92). -/
def recomputeBest (st : ManagerState) : ManagerState :=
  st.peers.foldl bestStep st

/-- The flattened staging sequence of `updatePeers`:
`_.without(_.flatten(_.map(peers, peer => peer.peers)), undefined)`, with
each peer's currently-reported further-peer list supplied by the transport
oracle `env`, keyed by the peer's `options.nonce`. -/
def peerListOf (env : String → List (Option PeerInfo)) (st : ManagerState) :
    List PeerInfo :=
  (st.peers.map (fun kv => env kv.2.options.nonce)).flatten.filterMap id

/-- The `newPeers` collection loop of `updatePeers` (lines 94–112) with its
accumulator: a candidate is skipped when a registered peer has its nonce
(compared against `item.options.nonce`), or when
`_.find(newPeers, item => item.nonce === peer.nonce || peer.nonce === ownNonce)`
is truthy; otherwise it is pushed. -/
def collectNew (cfg : Config) (registered : List (String × Peer)) :
    List PeerInfo → List PeerInfo → List PeerInfo
  | acc, [] => acc
  | acc, c :: rest =>
      if registered.any (fun kv => kv.2.options.nonce == c.nonce) then
        collectNew cfg registered acc rest
      else if acc.any (fun item => item.nonce == c.nonce || c.nonce == cfg.ownNonce) then
        collectNew cfg registered acc rest
      else
        collectNew cfg registered (acc ++ [c]) rest

/-- The method `PeerManager.updatePeers`, one discovery tick: flatten the reported
peer lists, recompute the best height, stage the genuinely new candidates,
and `addPeer` each of them in order. -/
def updatePeers (cfg : Config) (env : String → List (Option PeerInfo))
    (st : ManagerState) : ManagerState :=
  let peerList := peerListOf env st
  let st1 := recomputeBest st
  let newPeers := collectNew cfg st1.peers [] peerList
  newPeers.foldl (addPeer cfg) st1

/-- Modelled from the spec: `Peer.handleStatusUpdate` of libargus (not under
`src/`) — the peer's connection is the sole writer of its `PeerStatus`, and
applying an inbound status update sets the record's status to the reported
height and broadhash. -/
def peerApplyStatus (p : Peer) (u : StatusUpdate) : Peer :=
  { p with status := some { height := u.height, broadhash := u.broadhash } }

/-- The method `PeerManager.handleStatusUpdate`: a JS-falsy (empty) nonce returns at
once; an unknown nonce is ignored; otherwise the update is forwarded to the
matching peer record. -/
def handleStatusUpdate (st : ManagerState) (u : StatusUpdate) : ManagerState :=
  if u.nonce == "" then st
  else if hasKeyB st u.nonce then
    { st with
      peers := st.peers.map (fun kv =>
        if kv.1 == u.nonce then (kv.1, peerApplyStatus kv.2 u) else kv) }
  else st

/-- Modelled from the spec: `Peer.setWebsocketServerConnected` of libargus
(not under `src/`) sets the record's inbound-connection flag and nothing
else. -/
def peerSetConnected (p : Peer) (connected : Bool) : Peer :=
  { p with wsServerConnected := connected }

/-- The method `PeerManager.wsServerConnectionChanged`: unknown nonces are ignored;
otherwise the matching record's inbound-connection flag is set. -/
def wsServerConnectionChanged (st : ManagerState) (nonce : String)
    (connected : Bool) : ManagerState :=
  if hasKeyB st nonce then
    { st with
      peers := st.peers.map (fun kv =>
        if kv.1 == nonce then (kv.1, peerSetConnected kv.2 connected) else kv) }
  else st

/-- One iteration of the selection loop of `getBestHTTPPeer`: skip peers
without the HTTP flag; otherwise keep the peer whenever its height (missing
status counting as 0) is `≥` the running maximum, updating both the kept
peer and the running maximum. -/
def scanStep (acc : Option Peer × Nat) (peer : Peer) : Option Peer × Nat :=
  if peer.httpActive then
    if peerHeight peer ≥ acc.2 then (some peer, peerHeight peer) else acc
  else acc

/-- The scan of `getBestHTTPPeer` over the already-shuffled peer list,
starting from `bestPeer = undefined`, `bestHeight = 0`. -/
def getBestHTTPPeerScan (shuffled : List Peer) : Option Peer :=
  (shuffled.foldl scanStep (none, 0)).1

/-- The method `PeerManager.getBestHTTPPeer` as a function of the shuffled registry
values: `throw new Error("No best peer found")` becomes the `Except` error
case. -/
def getBestHTTPPeer (shuffled : List Peer) : Except String Peer :=
  match getBestHTTPPeerScan shuffled with
  | none => .error "No best peer found"
  | some p => .ok p

/-- The method `PeerManager.getBestHeight`. -/
def getBestHeight (st : ManagerState) : Nat :=
  st.bestHeight

/-- The candidate the constructor passes to `addPeer`: the configured seed
node's address and version with the literal nonce `""`. -/
def seedCandidate (seed : PeerInfo) : PeerInfo :=
  { ip := seed.ip
    wsPort := seed.wsPort
    httpPort := seed.httpPort
    version := seed.version
    nonce := "" }

/-- The state after the constructor body's `addPeer` call: the configured
seed node is admitted with the literal nonce `""`, starting from an empty
registry and `bestHeight = 0`, `bestBroadhash = ""`. -/
def initialState (cfg : Config) (seed : PeerInfo) : ManagerState :=
  addPeer cfg { peers := [], bestHeight := 0, bestBroadhash := "" }
    (seedCandidate seed)

/-- The manager's entry points, as one operation type: an `addPeer` call, a
discovery tick (with the transport oracle observed during that tick), an
inbound status event, and an inbound connection-state event. -/
inductive Op where
  | add (p : PeerInfo)
  | tick (env : String → List (Option PeerInfo))
  | status (u : StatusUpdate)
  | conn (nonce : String) (connected : Bool)

/-- Apply one operation to the manager state. -/
def applyOp (cfg : Config) (st : ManagerState) : Op → ManagerState
  | .add p => addPeer cfg st p
  | .tick env => updatePeers cfg env st
  | .status u => handleStatusUpdate st u
  | .conn n c => wsServerConnectionChanged st n c

/-- Apply a sequence of operations in order. -/
def runOps (cfg : Config) (st : ManagerState) (ops : List Op) : ManagerState :=
  ops.foldl (applyOp cfg) st

/-- The registry invariant of claim C4, as a boolean: no entry is keyed by
the own nonce or by a nonce containing the monitoring marker. -/
def goodRegistryB (cfg : Config) (st : ManagerState) : Bool :=
  st.peers.all (fun kv => !(kv.1 == cfg.ownNonce) && !containsMonitoring kv.1)

/-- Every registry entry's key equals its record's `options.nonce` (true of
every state the manager builds; `updatePeers` relies on it when it matches
candidates against `item.options.nonce`). -/
def wellKeyed (st : ManagerState) : Bool :=
  st.peers.all (fun kv => kv.1 == kv.2.options.nonce)

/-- The admission checks of `addPeer` that do not depend on the current
registry: not the own nonce, no monitoring marker, version accepted. -/
def checksB (cfg : Config) (p : PeerInfo) : Bool :=
  !(p.nonce == cfg.ownNonce) && !containsMonitoring p.nonce &&
    cfg.minVersionOK p.version

/-- The staging list one discovery tick passes to its `addPeer` loop: the
`newPeers` array after the collection loop ran over the flattened reported
candidates (the registry at that point is the one after the best-height
recomputation, whose entries are unchanged). -/
def stagedOf (cfg : Config) (env : String → List (Option PeerInfo))
    (st : ManagerState) : List PeerInfo :=
  collectNew cfg (recomputeBest st).peers [] (peerListOf env st)

/-- The HTTP-active candidates of a scanned list, in order. -/
def candsOf (l : List Peer) : List Peer :=
  l.filter (fun p => p.httpActive)

/-- Maximum height over a list of peers, missing status counting as 0
(`0` for the empty list). -/
def maxHeightOf (l : List Peer) : Nat :=
  l.foldl (fun m p => max m (peerHeight p)) 0

/-- The HTTP-active candidates achieving the maximal height, in order. -/
def achieversOf (l : List Peer) : List Peer :=
  (candsOf l).filter (fun p => peerHeight p == maxHeightOf (candsOf l))

/-! ### Concrete fixtures used by witnesses and counterexamples -/

/-- A concrete configuration: own nonce `"me"`, policy accepting exactly
version `"1"`. -/
def cfgW : Config :=
  { nethash := "n", ownNonce := "me", minVersionOK := fun v => v == "1" }

/-- A concrete candidate with the given nonce and the accepted version. -/
def infoW (n : String) : PeerInfo :=
  { ip := "127.0.0.1", wsPort := 1, httpPort := 2, version := "1", nonce := n }

/-- A concrete candidate whose version the policy rejects. -/
def infoBad : PeerInfo :=
  { infoW "x" with version := "0" }

/-- A concrete peer record with the given nonce, optional height and HTTP
flag. -/
def peerW (n : String) (h : Option Nat) (http : Bool) : Peer :=
  { options := { ip := "127.0.0.1", wsPort := 1, httpPort := 2, nethash := "n", nonce := n }
    status := h.map (fun k => { height := k, broadhash := "bh" })
    httpActive := http
    wsServerConnected := false }

/-- A concrete state holding one registered peer keyed `"seed"`, no status
yet, best height 0. -/
def stW : ManagerState :=
  { peers := [("seed", peerW "seed" none false)], bestHeight := 0, bestBroadhash := "" }

/-- A concrete status update for the `"seed"` peer reporting height 100. -/
def uW : StatusUpdate :=
  { nonce := "seed", height := 100, broadhash := "h1" }

/-- A concrete stable topology oracle: the seed reports candidate `"b"`,
peer `"b"` reports candidate `"c"`. -/
def envW : String → List (Option PeerInfo) := fun n =>
  if n == "seed" then [some (infoW "b")]
  else if n == "b" then [some (infoW "c")]
  else []

/-- A concrete state with two registered peers, `"seed"` and `"b"`. -/
def stW2 : ManagerState :=
  { peers := [("seed", peerW "seed" none false), ("b", peerW "b" none false)]
    bestHeight := 0
    bestBroadhash := "" }

/-- A concrete oracle where both registered peers report a candidate with
the same new nonce `"c"` (the two reports differ in the ip field). -/
def envDup : String → List (Option PeerInfo) := fun n =>
  if n == "seed" then [some (infoW "c")]
  else if n == "b" then [some { infoW "c" with ip := "10.0.0.2" }]
  else []

/-- Two concrete HTTP-active peers with equal height 5 and distinct nonces. -/
def pXa : Peer := peerW "a" (some 5) true

/-- Second of the two equal-height HTTP-active peers. -/
def pXb : Peer := peerW "b" (some 5) true

/-! ### Structural lemmas about `addPeer` -/

theorem addPeer_peers_cases (cfg : Config) (st : ManagerState) (p : PeerInfo) :
    (addPeer cfg st p).peers = st.peers ∨
      (addPeer cfg st p).peers = st.peers ++ [(p.nonce, mkPeer cfg p)] := by
  unfold addPeer
  split
  · exact Or.inl rfl
  split
  · exact Or.inl rfl
  split
  · exact Or.inl rfl
  · exact Or.inr rfl

theorem addPeer_bestHeight (cfg : Config) (st : ManagerState) (p : PeerInfo) :
    (addPeer cfg st p).bestHeight = st.bestHeight := by
  unfold addPeer
  split
  · rfl
  split
  · rfl
  split
  · rfl
  · rfl

theorem mem_addPeer_of_mem (cfg : Config) (st : ManagerState) (p : PeerInfo)
    (kv : String × Peer) (h : kv ∈ st.peers) : kv ∈ (addPeer cfg st p).peers := by
  rcases addPeer_peers_cases cfg st p with hc | hc <;> rw [hc]
  · exact h
  · exact List.mem_append_left _ h

theorem hasKeyB_addPeer_of_hasKeyB (cfg : Config) (st : ManagerState) (p : PeerInfo)
    (n : String) (h : hasKeyB st n = true) : hasKeyB (addPeer cfg st p) n = true := by
  unfold hasKeyB at *
  rcases addPeer_peers_cases cfg st p with hc | hc <;> rw [hc]
  · exact h
  · simp only [List.any_append, h, Bool.true_or]

theorem foldl_addPeer_bestHeight (cfg : Config) (l : List PeerInfo)
    (st : ManagerState) : (l.foldl (addPeer cfg) st).bestHeight = st.bestHeight := by
  induction l generalizing st with
  | nil => rfl
  | cons c rest ih => rw [List.foldl_cons, ih, addPeer_bestHeight]

theorem mem_foldl_addPeer_of_mem (cfg : Config) (l : List PeerInfo)
    (st : ManagerState) (kv : String × Peer) (h : kv ∈ st.peers) :
    kv ∈ (l.foldl (addPeer cfg) st).peers := by
  induction l generalizing st with
  | nil => exact h
  | cons c rest ih => exact ih _ (mem_addPeer_of_mem cfg st c kv h)

theorem hasKeyB_foldl_addPeer_of_hasKeyB (cfg : Config) (l : List PeerInfo)
    (st : ManagerState) (n : String) (h : hasKeyB st n = true) :
    hasKeyB (l.foldl (addPeer cfg) st) n = true := by
  induction l generalizing st with
  | nil => exact h
  | cons c rest ih => exact ih _ (hasKeyB_addPeer_of_hasKeyB cfg st c n h)

/-- If the context-free admission checks pass, then after `addPeer` the
candidate's nonce is certainly a registry key (it was either already there
or has just been inserted). -/
theorem hasKeyB_addPeer_self (cfg : Config) (st : ManagerState) (p : PeerInfo)
    (h : checksB cfg p = true) : hasKeyB (addPeer cfg st p) p.nonce = true := by
  simp only [checksB, Bool.and_eq_true, Bool.not_eq_true'] at h
  obtain ⟨⟨h1, h2⟩, h3⟩ := h
  unfold addPeer
  split
  next hc => rw [h1, h2] at hc; simp at hc
  split
  next hc => exact hc
  split
  next hc => rw [h3] at hc; simp at hc
  next => simp [hasKeyB, List.any_append]

/-! ### Lemmas about the best-height recomputation -/

theorem bestStep_peers (acc : ManagerState) (kv : String × Peer) :
    (bestStep acc kv).peers = acc.peers := by
  unfold bestStep
  split
  · split
    · rfl
    · rfl
  · rfl

theorem bestStep_bestHeight_le (acc : ManagerState) (kv : String × Peer) :
    acc.bestHeight ≤ (bestStep acc kv).bestHeight := by
  unfold bestStep
  split
  next s hs =>
    split
    next hgt => exact Nat.le_of_lt hgt
    next => exact Nat.le_refl _
  next => exact Nat.le_refl _

theorem bestStep_status_le (acc : ManagerState) (kv : String × Peer)
    (s : PeerStatus) (hs : kv.2.status = some s) :
    s.height ≤ (bestStep acc kv).bestHeight := by
  unfold bestStep
  rw [hs]
  split
  next s' hs' =>
    injection hs' with h
    subst h
    split
    next => exact Nat.le_refl _
    next hgt => exact Nat.le_of_not_lt hgt
  next hs' => simp at hs'

theorem foldl_bestStep_peers (l : List (String × Peer)) (acc : ManagerState) :
    (l.foldl bestStep acc).peers = acc.peers := by
  induction l generalizing acc with
  | nil => rfl
  | cons kv rest ih => rw [List.foldl_cons, ih, bestStep_peers]

theorem foldl_bestStep_bestHeight_le (l : List (String × Peer)) (acc : ManagerState) :
    acc.bestHeight ≤ (l.foldl bestStep acc).bestHeight := by
  induction l generalizing acc with
  | nil => exact Nat.le_refl _
  | cons kv rest ih =>
      exact Nat.le_trans (bestStep_bestHeight_le acc kv) (ih (bestStep acc kv))

theorem recomputeBest_peers (st : ManagerState) :
    (recomputeBest st).peers = st.peers :=
  foldl_bestStep_peers st.peers st

theorem recomputeBest_bestHeight_le (st : ManagerState) :
    st.bestHeight ≤ (recomputeBest st).bestHeight :=
  foldl_bestStep_bestHeight_le st.peers st

/-- The recompute pass ends at least as high as any status height present
in the registry. -/
theorem recomputeBest_ge_status (st : ManagerState) (kv : String × Peer)
    (s : PeerStatus) (hmem : kv ∈ st.peers) (hs : kv.2.status = some s) :
    s.height ≤ (recomputeBest st).bestHeight := by
  obtain ⟨l1, l2, hsplit⟩ := List.append_of_mem hmem
  unfold recomputeBest
  rw [hsplit, List.foldl_append, List.foldl_cons]
  exact Nat.le_trans (bestStep_status_le _ kv s hs)
    (foldl_bestStep_bestHeight_le l2 _)

/-! ### State-wide facts about `updatePeers` and the other entry points -/

theorem updatePeers_bestHeight (cfg : Config) (env : String → List (Option PeerInfo))
    (st : ManagerState) :
    (updatePeers cfg env st).bestHeight = (recomputeBest st).bestHeight := by
  unfold updatePeers
  exact foldl_addPeer_bestHeight cfg _ _

theorem handleStatusUpdate_bestHeight (st : ManagerState) (u : StatusUpdate) :
    (handleStatusUpdate st u).bestHeight = st.bestHeight := by
  unfold handleStatusUpdate
  split
  · rfl
  split
  · rfl
  · rfl

theorem wsServerConnectionChanged_bestHeight (st : ManagerState) (n : String)
    (c : Bool) : (wsServerConnectionChanged st n c).bestHeight = st.bestHeight := by
  unfold wsServerConnectionChanged
  split
  · rfl
  · rfl

theorem applyOp_bestHeight_le (cfg : Config) (st : ManagerState) (op : Op) :
    st.bestHeight ≤ (applyOp cfg st op).bestHeight := by
  cases op with
  | add p => rw [applyOp, addPeer_bestHeight]
  | tick env =>
      rw [applyOp, updatePeers_bestHeight]
      exact recomputeBest_bestHeight_le st
  | status u => rw [applyOp, handleStatusUpdate_bestHeight]
  | conn n c => rw [applyOp, wsServerConnectionChanged_bestHeight]

theorem runOps_bestHeight_le (cfg : Config) (st : ManagerState) (ops : List Op) :
    st.bestHeight ≤ (runOps cfg st ops).bestHeight := by
  induction ops generalizing st with
  | nil => exact Nat.le_refl _
  | cons op rest ih =>
      exact Nat.le_trans (applyOp_bestHeight_le cfg st op) (ih (applyOp cfg st op))

/-! ### Branch lemmas for `addPeer` -/

theorem addPeer_of_marker (cfg : Config) (st : ManagerState) (p : PeerInfo)
    (h : (p.nonce == cfg.ownNonce || containsMonitoring p.nonce) = true) :
    addPeer cfg st p = st := by
  unfold addPeer
  rw [h]
  simp

theorem addPeer_of_hasKey (cfg : Config) (st : ManagerState) (p : PeerInfo)
    (h : hasKeyB st p.nonce = true) : addPeer cfg st p = st := by
  unfold addPeer
  rw [h]
  split
  · rfl
  · simp

theorem addPeer_of_badVersion (cfg : Config) (st : ManagerState) (p : PeerInfo)
    (h : cfg.minVersionOK p.version = false) : addPeer cfg st p = st := by
  unfold addPeer
  rw [h]
  split
  · rfl
  split
  · rfl
  · simp

theorem addPeer_of_insert (cfg : Config) (st : ManagerState) (p : PeerInfo)
    (h1 : (p.nonce == cfg.ownNonce || containsMonitoring p.nonce) = false)
    (h2 : hasKeyB st p.nonce = false) (h3 : cfg.minVersionOK p.version = true) :
    addPeer cfg st p = { st with peers := st.peers ++ [(p.nonce, mkPeer cfg p)] } := by
  unfold addPeer
  rw [h1, h2, h3]
  simp

/-- The operation `addPeer` is idempotent as a state transformer. -/
theorem addPeer_idem (cfg : Config) (st : ManagerState) (p : PeerInfo) :
    addPeer cfg (addPeer cfg st p) p = addPeer cfg st p := by
  rcases hb1 : (p.nonce == cfg.ownNonce || containsMonitoring p.nonce) with _ | _
  case true =>
    rw [addPeer_of_marker cfg st p hb1, addPeer_of_marker cfg st p hb1]
  case false =>
  rcases hb2 : hasKeyB st p.nonce with _ | _
  case true =>
    rw [addPeer_of_hasKey cfg st p hb2, addPeer_of_hasKey cfg st p hb2]
  case false =>
  rcases hb3 : cfg.minVersionOK p.version with _ | _
  case false =>
    rw [addPeer_of_badVersion cfg st p hb3, addPeer_of_badVersion cfg st p hb3]
  case true =>
  rw [addPeer_of_insert cfg st p hb1 hb2 hb3]
  apply addPeer_of_hasKey
  unfold hasKeyB
  simp

/-! ### Key-preservation lemmas -/

/-- A list's `all` is stable under a map that does not change the predicate's value
on any element of the list. -/
theorem all_map_of_pointwise {α : Type} (l : List α) (f : α → α) (P : α → Bool)
    (hf : ∀ x ∈ l, P (f x) = P x) : (l.map f).all P = l.all P := by
  induction l with
  | nil => rfl
  | cons x rest ih =>
      simp only [List.map_cons, List.all_cons]
      rw [hf x (List.mem_cons_self x rest), ih (fun y hy => hf y (List.mem_cons_of_mem x hy))]

theorem goodRegistryB_addPeer (cfg : Config) (st : ManagerState) (p : PeerInfo)
    (h : goodRegistryB cfg st = true) :
    goodRegistryB cfg (addPeer cfg st p) = true := by
  rcases hb1 : (p.nonce == cfg.ownNonce || containsMonitoring p.nonce) with _ | _
  case true => rw [addPeer_of_marker cfg st p hb1]; exact h
  case false =>
  rcases hb2 : hasKeyB st p.nonce with _ | _
  case true => rw [addPeer_of_hasKey cfg st p hb2]; exact h
  case false =>
  rcases hb3 : cfg.minVersionOK p.version with _ | _
  case false => rw [addPeer_of_badVersion cfg st p hb3]; exact h
  case true =>
  rw [addPeer_of_insert cfg st p hb1 hb2 hb3]
  simp only [Bool.or_eq_false_iff] at hb1
  unfold goodRegistryB at *
  simp only [List.all_append, h, Bool.true_and, List.all_cons, List.all_nil,
    Bool.and_true, hb1.1, hb1.2, Bool.not_false]

theorem goodRegistryB_foldl_addPeer (cfg : Config) (l : List PeerInfo)
    (st : ManagerState) (h : goodRegistryB cfg st = true) :
    goodRegistryB cfg (l.foldl (addPeer cfg) st) = true := by
  induction l generalizing st with
  | nil => exact h
  | cons c rest ih => exact ih _ (goodRegistryB_addPeer cfg st c h)

/-- The invariant `goodRegistryB` depends only on the registry component. -/
theorem goodRegistryB_of_peers_eq (cfg : Config) (st st' : ManagerState)
    (h : st'.peers = st.peers) : goodRegistryB cfg st' = goodRegistryB cfg st := by
  unfold goodRegistryB
  rw [h]

theorem goodRegistryB_applyOp (cfg : Config) (st : ManagerState) (op : Op)
    (h : goodRegistryB cfg st = true) :
    goodRegistryB cfg (applyOp cfg st op) = true := by
  cases op with
  | add p => exact goodRegistryB_addPeer cfg st p h
  | tick env =>
      show goodRegistryB cfg (updatePeers cfg env st) = true
      unfold updatePeers
      apply goodRegistryB_foldl_addPeer
      rw [goodRegistryB_of_peers_eq cfg st (recomputeBest st) (recomputeBest_peers st)]
      exact h
  | status u =>
      show goodRegistryB cfg (handleStatusUpdate st u) = true
      unfold handleStatusUpdate
      split
      · exact h
      split
      · unfold goodRegistryB at *
        simp only
        rw [all_map_of_pointwise]
        · exact h
        · intro kv _
          split
          · rfl
          · rfl
      · exact h
  | conn n c =>
      show goodRegistryB cfg (wsServerConnectionChanged st n c) = true
      unfold wsServerConnectionChanged
      split
      · unfold goodRegistryB at *
        simp only
        rw [all_map_of_pointwise]
        · exact h
        · intro kv _
          split
          · rfl
          · rfl
      · exact h

theorem goodRegistryB_runOps (cfg : Config) (st : ManagerState) (ops : List Op)
    (h : goodRegistryB cfg st = true) :
    goodRegistryB cfg (runOps cfg st ops) = true := by
  induction ops generalizing st with
  | nil => exact h
  | cons op rest ih => exact ih _ (goodRegistryB_applyOp cfg st op h)

/-! ### Claim theorems: C3, C4, C9, C5, C10, C2 -/

/-- Claim C3: for every sequence of operations (`addPeer` calls, discovery
ticks, status updates, connection-state changes), `getBestHeight` is
non-decreasing — its value after any prefix of the sequence is at most its
value after any longer prefix. -/
theorem C3_getBestHeight_monotone (cfg : Config) (st : ManagerState)
    (ops1 ops2 : List Op) :
    getBestHeight (runOps cfg st ops1) ≤ getBestHeight (runOps cfg st (ops1 ++ ops2)) := by
  have hsplit : runOps cfg st (ops1 ++ ops2) = runOps cfg (runOps cfg st ops1) ops2 := by
    unfold runOps
    exact List.foldl_append _ _ _ _
  rw [hsplit]
  exact runOps_bestHeight_le cfg (runOps cfg st ops1) ops2

/-- Claim C4: starting from the constructor's state, no sequence of
operations ever produces a registry entry keyed by the own nonce or by a
nonce containing the monitoring marker (in particular `addPeer`, the only
inserting operation, never inserts one). -/
theorem C4_no_self_or_monitoring_entry (cfg : Config) (seed : PeerInfo)
    (ops : List Op) :
    goodRegistryB cfg (runOps cfg (initialState cfg seed) ops) = true := by
  apply goodRegistryB_runOps
  unfold initialState
  apply goodRegistryB_addPeer
  rfl

/-- Claim C9: a candidate whose declared version fails the configured
minimum-version policy leaves the whole manager state — registry key set
and every entry — exactly unchanged, and no error is raised (`addPeer` is
total). -/
theorem C9_version_reject_noop (cfg : Config) (st : ManagerState) (p : PeerInfo)
    (h : cfg.minVersionOK p.version = false) : addPeer cfg st p = st :=
  addPeer_of_badVersion cfg st p h

/-- Witness for C9 at a concrete rejected candidate. -/
theorem C9_version_reject_noop_witness :
    cfgW.minVersionOK infoBad.version = false ∧ addPeer cfgW stW infoBad = stW :=
  ⟨by decide, C9_version_reject_noop cfgW stW infoBad (by decide)⟩

/-- Claim C5: `addPeer` is idempotent in the nonce key — a second call with
the same candidate changes nothing, and when the first call admitted the
candidate, the registry keeps exactly one entry under that nonce, holding
the record constructed at first admission. -/
theorem C5_addPeer_idempotent (cfg : Config) (st : ManagerState) (p : PeerInfo) :
    addPeer cfg (addPeer cfg st p) p = addPeer cfg st p ∧
    (checksB cfg p = true → hasKeyB st p.nonce = false →
      (addPeer cfg (addPeer cfg st p) p).peers.filter (fun kv => kv.1 == p.nonce)
        = [(p.nonce, mkPeer cfg p)]) := by
  refine ⟨addPeer_idem cfg st p, ?_⟩
  intro hchecks hkey
  simp only [checksB, Bool.and_eq_true, Bool.not_eq_true'] at hchecks
  obtain ⟨⟨h1, h2⟩, h3⟩ := hchecks
  rw [addPeer_idem cfg st p,
    addPeer_of_insert cfg st p (by rw [h1, h2]; rfl) hkey h3]
  simp only [List.filter_append]
  unfold hasKeyB at hkey
  have hnil : st.peers.filter (fun kv => kv.1 == p.nonce) = [] := by
    rw [List.filter_eq_nil_iff]
    intro kv hmem
    intro hkv
    rw [List.any_eq_false] at hkey
    exact absurd hkv (hkey kv hmem)
  rw [hnil]
  simp

/-- Witness for C5 at a concrete fresh candidate. -/
theorem C5_addPeer_idempotent_witness :
    addPeer cfgW (addPeer cfgW stW (infoW "b")) (infoW "b") = addPeer cfgW stW (infoW "b") ∧
    (addPeer cfgW (addPeer cfgW stW (infoW "b")) (infoW "b")).peers.filter
        (fun kv => kv.1 == (infoW "b").nonce)
      = [((infoW "b").nonce, mkPeer cfgW (infoW "b"))] :=
  ⟨(C5_addPeer_idempotent cfgW stW (infoW "b")).1,
   (C5_addPeer_idempotent cfgW stW (infoW "b")).2 (by decide) (by decide)⟩

/-- Claim C10: a status update whose nonce is the empty string is treated
as absent and changes nothing, so the seed entry — which the constructor
admits under the literal key `""` whenever the own nonce is non-empty and
the seed's version is accepted — can never be updated through
`handleStatusUpdate`. -/
theorem C10_empty_nonce_never_updated (cfg : Config) (seed : PeerInfo)
    (st : ManagerState) (u : StatusUpdate) :
    (u.nonce = "" → handleStatusUpdate st u = st) ∧
    ((cfg.ownNonce == "") = false → cfg.minVersionOK seed.version = true →
      ("", mkPeer cfg (seedCandidate seed)) ∈ (initialState cfg seed).peers) := by
  constructor
  · intro hn
    unfold handleStatusUpdate
    rw [hn]
    simp
  · intro hown hver
    unfold initialState
    have hnonce : (seedCandidate seed).nonce = "" := rfl
    rw [addPeer_of_insert]
    · rw [hnonce]
      simp
    · rw [hnonce]
      have h1 : (("" : String) == cfg.ownNonce) = false := by
        rw [beq_eq_false_iff_ne] at hown ⊢
        exact fun hc => hown hc.symm
      rw [h1]
      rfl
    · rfl
    · exact hver

/-- Witness for C10 at the concrete configuration and an empty-nonce
update. -/
theorem C10_empty_nonce_never_updated_witness :
    handleStatusUpdate stW { nonce := "", height := 7, broadhash := "z" } = stW ∧
    ("", mkPeer cfgW (seedCandidate (infoW "s"))) ∈ (initialState cfgW (infoW "s")).peers :=
  ⟨(C10_empty_nonce_never_updated cfgW (infoW "s") stW
      { nonce := "", height := 7, broadhash := "z" }).1 rfl,
   (C10_empty_nonce_never_updated cfgW (infoW "s") stW
      { nonce := "", height := 7, broadhash := "z" }).2 (by decide) (by decide)⟩

/-- Claim C2 is false on the code: a status update for a registered peer
reporting a height above the current best does not change
`getBestHeight` — the tracker is written only by the discovery tick. -/
theorem C2_counterexample :
    hasKeyB stW uW.nonce = true ∧ uW.height = 100 ∧ getBestHeight stW = 0 ∧
    getBestHeight (handleStatusUpdate stW uW) = 0 ∧
    getBestHeight (handleStatusUpdate stW uW) ≠ uW.height := by
  refine ⟨by decide, rfl, rfl, rfl, by decide⟩

/-- Claim C2 (amended): `handleStatusUpdate` never changes
`getBestHeight`; the newly reported height is reflected only after the next
discovery tick, which then returns at least that height when the update's
nonce was non-empty and registered. -/
theorem C2_amended_best_height_on_tick (cfg : Config)
    (env : String → List (Option PeerInfo)) (st : ManagerState) (u : StatusUpdate) :
    getBestHeight (handleStatusUpdate st u) = getBestHeight st ∧
    (u.nonce ≠ "" → hasKeyB st u.nonce = true →
      u.height ≤ getBestHeight (updatePeers cfg env (handleStatusUpdate st u))) := by
  constructor
  · exact handleStatusUpdate_bestHeight st u
  · intro hne hkeyB
    show u.height ≤ (updatePeers cfg env (handleStatusUpdate st u)).bestHeight
    rw [updatePeers_bestHeight]
    have hne' : (u.nonce == "") = false := by
      rw [beq_eq_false_iff_ne]
      exact hne
    have hpeers : (handleStatusUpdate st u).peers
        = st.peers.map (fun kv =>
            if kv.1 == u.nonce then (kv.1, peerApplyStatus kv.2 u) else kv) := by
      unfold handleStatusUpdate
      rw [hne', hkeyB]
      simp
    have hkey := hkeyB
    unfold hasKeyB at hkey
    rw [List.any_eq_true] at hkey
    obtain ⟨kv, hmem, hbeq⟩ := hkey
    have hmem2 : (kv.1, peerApplyStatus kv.2 u) ∈ (handleStatusUpdate st u).peers := by
      rw [hpeers]
      refine List.mem_map.mpr ⟨kv, hmem, ?_⟩
      rw [if_pos hbeq]
    exact recomputeBest_ge_status (handleStatusUpdate st u)
      (kv.1, peerApplyStatus kv.2 u) { height := u.height, broadhash := u.broadhash }
      hmem2 rfl

/-- Witness for the amended C2 at the concrete seed registry and status
update. -/
theorem C2_amended_best_height_on_tick_witness :
    getBestHeight (handleStatusUpdate stW uW) = getBestHeight stW ∧
    uW.height ≤ getBestHeight (updatePeers cfgW envW (handleStatusUpdate stW uW)) :=
  ⟨(C2_amended_best_height_on_tick cfgW envW stW uW).1,
   (C2_amended_best_height_on_tick cfgW envW stW uW).2 (by decide) (by decide)⟩

/-! ### Characterization of the `getBestHTTPPeer` scan -/

theorem maxHeightOf_append_singleton (l : List Peer) (p : Peer) :
    maxHeightOf (l ++ [p]) = max (maxHeightOf l) (peerHeight p) := by
  unfold maxHeightOf
  rw [List.foldl_append]
  rfl

theorem candsOf_append_singleton (l : List Peer) (p : Peer) :
    candsOf (l ++ [p]) = candsOf l ++ (if p.httpActive then [p] else []) := by
  unfold candsOf
  rw [List.filter_append]
  split
  next h => rw [List.filter_cons_of_pos h]; rfl
  next h => rw [List.filter_cons_of_neg (by simpa using h)]; rfl

/-- The selection scan computes the last maximal-height HTTP-active
candidate and the maximal height itself (height 0 for missing status, 0
when no candidate exists). -/
theorem scan_characterization (l : List Peer) :
    l.foldl scanStep (none, 0) = ((achieversOf l).getLast?, maxHeightOf (candsOf l)) := by
  induction l using List.reverseRecOn with
  | nil => rfl
  | append_singleton l p ih =>
      rw [List.foldl_append, List.foldl_cons, List.foldl_nil, ih]
      rcases hhttp : p.httpActive with _ | _
      case false =>
        have hcands : candsOf (l ++ [p]) = candsOf l := by
          rw [candsOf_append_singleton, hhttp]
          simp
        have hstep : scanStep ((achieversOf l).getLast?, maxHeightOf (candsOf l)) p
            = ((achieversOf l).getLast?, maxHeightOf (candsOf l)) := by
          unfold scanStep
          rw [hhttp]
          simp
        rw [hstep]
        unfold achieversOf
        rw [hcands]
      case true =>
        have hcands : candsOf (l ++ [p]) = candsOf l ++ [p] := by
          rw [candsOf_append_singleton, hhttp]
          simp
        by_cases hge : maxHeightOf (candsOf l) ≤ peerHeight p
        · have hstep : scanStep ((achieversOf l).getLast?, maxHeightOf (candsOf l)) p
              = (some p, peerHeight p) := by
            unfold scanStep
            rw [hhttp]
            simp only [if_true]
            rw [if_pos hge]
          rw [hstep]
          have hmax : maxHeightOf (candsOf (l ++ [p])) = peerHeight p := by
            rw [hcands, maxHeightOf_append_singleton]
            exact Nat.max_eq_right hge
          have hach : achieversOf (l ++ [p])
              = (candsOf l).filter (fun q => peerHeight q == peerHeight p) ++ [p] := by
            unfold achieversOf
            rw [hcands, maxHeightOf_append_singleton, Nat.max_eq_right hge,
              List.filter_append]
            simp
          rw [hach, hmax, List.getLast?_concat]
        · have hlt : peerHeight p < maxHeightOf (candsOf l) := Nat.lt_of_not_le hge
          have hstep : scanStep ((achieversOf l).getLast?, maxHeightOf (candsOf l)) p
              = ((achieversOf l).getLast?, maxHeightOf (candsOf l)) := by
            unfold scanStep
            rw [hhttp]
            simp only [if_true]
            rw [if_neg (by simpa using Nat.not_le_of_lt hlt)]
          rw [hstep]
          have hmax : maxHeightOf (candsOf (l ++ [p])) = maxHeightOf (candsOf l) := by
            rw [hcands, maxHeightOf_append_singleton]
            exact Nat.max_eq_left (Nat.le_of_lt hlt)
          have hach : achieversOf (l ++ [p]) = achieversOf l := by
            unfold achieversOf
            rw [hcands, maxHeightOf_append_singleton, Nat.max_eq_left (Nat.le_of_lt hlt),
              List.filter_append,
              List.filter_cons_of_neg (by simpa using Nat.ne_of_lt hlt)]
            simp
          rw [hach, hmax]

/-- A nonempty peer list attains its maximal height. -/
theorem exists_peer_of_maxHeightOf (l : List Peer) (h : l ≠ []) :
    ∃ p ∈ l, peerHeight p = maxHeightOf l := by
  induction l using List.reverseRecOn with
  | nil => exact absurd rfl h
  | append_singleton l p ih =>
      rw [maxHeightOf_append_singleton]
      rcases eq_or_ne l [] with hl | hl
      · subst hl
        exact ⟨p, by simp, by simp [maxHeightOf]⟩
      · obtain ⟨q, hq, hqm⟩ := ih hl
        by_cases hge : maxHeightOf l ≤ peerHeight p
        · exact ⟨p, by simp, (Nat.max_eq_right hge).symm⟩
        · refine ⟨q, by simp [hq], ?_⟩
          rw [hqm]
          exact (Nat.max_eq_left (Nat.le_of_not_le hge)).symm

theorem achieversOf_eq_nil_iff (l : List Peer) :
    achieversOf l = [] ↔ candsOf l = [] := by
  constructor
  · intro h
    by_contra hc
    obtain ⟨q, hq, hqm⟩ := exists_peer_of_maxHeightOf (candsOf l) hc
    have : q ∈ achieversOf l := by
      unfold achieversOf
      rw [List.mem_filter]
      exact ⟨hq, by simp [hqm]⟩
    rw [h] at this
    exact absurd this (List.not_mem_nil q)
  · intro h
    unfold achieversOf
    rw [h]
    rfl

theorem getBestHTTPPeerScan_eq_none_iff (l : List Peer) :
    getBestHTTPPeerScan l = none ↔ candsOf l = [] := by
  unfold getBestHTTPPeerScan
  rw [scan_characterization]
  show (achieversOf l).getLast? = none ↔ _
  rw [List.getLast?_eq_none_iff, achieversOf_eq_nil_iff]

theorem getBestHTTPPeerScan_httpActive (l : List Peer) (p : Peer)
    (h : getBestHTTPPeerScan l = some p) : p.httpActive = true := by
  unfold getBestHTTPPeerScan at h
  rw [scan_characterization] at h
  have hmem : p ∈ achieversOf l := List.mem_of_mem_getLast? h
  unfold achieversOf candsOf at hmem
  rw [List.mem_filter] at hmem
  rw [List.mem_filter] at hmem
  exact hmem.1.2

theorem getBestHTTPPeer_error_iff (l : List Peer) :
    getBestHTTPPeer l = .error "No best peer found" ↔ getBestHTTPPeerScan l = none := by
  unfold getBestHTTPPeer
  rcases hscan : getBestHTTPPeerScan l with _ | q
  · simp
  · simp

theorem getBestHTTPPeer_ok_iff (l : List Peer) (p : Peer) :
    getBestHTTPPeer l = .ok p ↔ getBestHTTPPeerScan l = some p := by
  unfold getBestHTTPPeer
  rcases hscan : getBestHTTPPeerScan l with _ | q
  · simp
  · simp

/-! ### Claim theorems: C1 and C6 -/

/-- Claim C1 is false on the code: with two distinct HTTP-active candidates
of exactly equal maximal height, the `>=` comparison overwrites the kept
record, so the scan returns the later candidate in shuffle order, not the
earlier one. -/
theorem C1_counterexample :
    pXa.httpActive = true ∧ pXb.httpActive = true ∧
    peerHeight pXa = peerHeight pXb ∧ pXa ≠ pXb ∧
    getBestHTTPPeer [pXa, pXb] = .ok pXb := by
  refine ⟨rfl, rfl, rfl, by decide, rfl⟩

/-- Claim C1 (amended): the scan keeps the last record encountered whose
height is `≥` the running maximum, so it returns the latest-in-shuffle-order
candidate among those of maximal height (missing status counted as 0). -/
theorem C1_scan_keeps_latest (shuffled : List Peer) :
    getBestHTTPPeerScan shuffled = (achieversOf shuffled).getLast? := by
  unfold getBestHTTPPeerScan
  rw [scan_characterization]

/-- Claim C6: `getBestHTTPPeer` fails with the explicit
`"No best peer found"` error exactly when the registry has zero HTTP-active
entries, and any record it returns has the HTTP-active flag set. -/
theorem C6_notfound_iff_no_http (st : ManagerState) (shuffled : List Peer)
    (hperm : shuffled.Perm (st.peers.map Prod.snd)) :
    (getBestHTTPPeer shuffled = .error "No best peer found"
      ↔ st.peers.all (fun kv => !kv.2.httpActive) = true) ∧
    (∀ p, getBestHTTPPeer shuffled = .ok p → p.httpActive = true) := by
  constructor
  · rw [getBestHTTPPeer_error_iff, getBestHTTPPeerScan_eq_none_iff]
    unfold candsOf
    rw [List.filter_eq_nil_iff, List.all_eq_true]
    constructor
    · intro hnone kv hkv
      have : kv.2 ∈ shuffled :=
        hperm.mem_iff.mpr (List.mem_map.mpr ⟨kv, hkv, rfl⟩)
      have := hnone kv.2 this
      simpa using this
    · intro hall q hq
      have : q ∈ st.peers.map Prod.snd := hperm.mem_iff.mp hq
      obtain ⟨kv, hkv, hq2⟩ := List.mem_map.mp this
      subst hq2
      simpa using hall kv hkv
  · intro p hp
    exact getBestHTTPPeerScan_httpActive shuffled p
      ((getBestHTTPPeer_ok_iff shuffled p).mp hp)

/-- Witness for C6 at the concrete one-peer registry (whose only entry is
not HTTP-active) scanned in registry order. -/
theorem C6_notfound_iff_no_http_witness :
    (getBestHTTPPeer (stW.peers.map Prod.snd) = .error "No best peer found"
      ↔ stW.peers.all (fun kv => !kv.2.httpActive) = true) ∧
    (∀ p, getBestHTTPPeer (stW.peers.map Prod.snd) = .ok p → p.httpActive = true) :=
  C6_notfound_iff_no_http stW (stW.peers.map Prod.snd) (List.Perm.refl _)

/-! ### Characterization of the staging collection loop -/

/-- For a nonce `n` that is neither the own nonce nor registered, the
`n`-entries of the collection loop's output are the `n`-entries already in
the accumulator, plus — when the accumulator has none — the first `n`-entry
of the remaining input. -/
theorem collectNew_filter_nonce (cfg : Config) (registered : List (String × Peer))
    (n : String) (hn : (n == cfg.ownNonce) = false)
    (hreg : registered.all (fun kv => !(kv.2.options.nonce == n)) = true) :
    ∀ (l acc : List PeerInfo),
      (collectNew cfg registered acc l).filter (fun c => c.nonce == n) =
        acc.filter (fun c => c.nonce == n) ++
          (if acc.any (fun c => c.nonce == n) then []
           else match l.find? (fun c => c.nonce == n) with
                | some c => [c]
                | none => []) := by
  intro l
  induction l with
  | nil =>
      intro acc
      show (acc.filter _) = _
      rw [List.find?_nil]
      split
      · simp
      · simp
  | cons c rest ih =>
      intro acc
      show (if registered.any (fun kv => kv.2.options.nonce == c.nonce) then
              collectNew cfg registered acc rest
            else if acc.any (fun item => item.nonce == c.nonce || c.nonce == cfg.ownNonce) then
              collectNew cfg registered acc rest
            else collectNew cfg registered (acc ++ [c]) rest).filter
              (fun c => c.nonce == n) = _
      rcases hb : (c.nonce == n) with _ | _
      case false =>
        have hfind : (c :: rest).find? (fun c => c.nonce == n)
            = rest.find? (fun c => c.nonce == n) :=
          List.find?_cons_of_neg rest (by simp [hb])
        rw [hfind]
        split
        · exact ih acc
        split
        · exact ih acc
        · rw [ih (acc ++ [c])]
          have hfacc : (acc ++ [c]).filter (fun c => c.nonce == n)
              = acc.filter (fun c => c.nonce == n) := by
            rw [List.filter_append, List.filter_cons_of_neg (by simp [hb])]
            simp
          have haacc : (acc ++ [c]).any (fun c => c.nonce == n)
              = acc.any (fun c => c.nonce == n) := by
            rw [List.any_append]
            simp [hb]
          rw [hfacc, haacc]
      case true =>
        have hceq : c.nonce = n := by simpa using hb
        split
        next hregc =>
          exfalso
          rw [List.any_eq_true] at hregc
          obtain ⟨kv, hkv, hkvb⟩ := hregc
          rw [List.all_eq_true] at hreg
          have := hreg kv hkv
          rw [hceq] at hkvb
          simp [hkvb] at this
        split
        next hacc =>
          have hacc' : acc.any (fun c => c.nonce == n) = true := by
            rw [hceq, hn] at hacc
            simpa using hacc
          rw [ih acc, hacc']
          simp
        next hacc =>
          have hacc' : acc.any (fun c => c.nonce == n) = false := by
            rw [hceq, hn] at hacc
            simpa using hacc
          rw [ih (acc ++ [c])]
          have hfind : (c :: rest).find? (fun c => c.nonce == n) = some c :=
            List.find?_cons_of_pos rest hb
          rw [hfind, hacc']
          have hfacc : (acc ++ [c]).filter (fun c => c.nonce == n)
              = acc.filter (fun c => c.nonce == n) ++ [c] := by
            rw [List.filter_append]
            simp [hb]
          have haacc : (acc ++ [c]).any (fun c => c.nonce == n) = true := by
            rw [List.any_append]
            simp [hb]
          rw [hfacc, haacc]
          simp

/-- For a new nonce `n` reported this tick (not own, not registered), the
staged list holds exactly one `n`-candidate: the first occurrence in the
flattened staging sequence. -/
theorem staged_filter_singleton (cfg : Config)
    (env : String → List (Option PeerInfo)) (st : ManagerState) (n : String)
    (hown : (n == cfg.ownNonce) = false)
    (hreg : st.peers.all (fun kv => !(kv.2.options.nonce == n)) = true)
    (hrep : (peerListOf env st).any (fun c => c.nonce == n) = true) :
    ∃ c, (peerListOf env st).find? (fun c => c.nonce == n) = some c ∧
      (stagedOf cfg env st).filter (fun c => c.nonce == n) = [c] := by
  have hfind : ((peerListOf env st).find? (fun c => c.nonce == n)).isSome := by
    rw [List.find?_isSome]
    rw [List.any_eq_true] at hrep
    exact hrep
  obtain ⟨c, hc⟩ := Option.isSome_iff_exists.mp hfind
  refine ⟨c, hc, ?_⟩
  unfold stagedOf
  rw [collectNew_filter_nonce cfg (recomputeBest st).peers n hown
    (by rw [recomputeBest_peers]; exact hreg) (peerListOf env st) [], hc]
  simp

/-! ### Claim theorem: C8 -/

/-- Claim C8: within one discovery tick, all reports of the same new nonce
are collapsed to a single staged candidate — the first occurrence in the
flattened staging sequence — so exactly one `addPeer` admission occurs for
that nonce. -/
theorem C8_dedup_within_tick (cfg : Config)
    (env : String → List (Option PeerInfo)) (st : ManagerState) (n : String)
    (hown : (n == cfg.ownNonce) = false)
    (hreg : st.peers.all (fun kv => !(kv.2.options.nonce == n)) = true)
    (hrep : (peerListOf env st).any (fun c => c.nonce == n) = true) :
    ∃ c, (peerListOf env st).find? (fun c => c.nonce == n) = some c ∧
      (stagedOf cfg env st).filter (fun c => c.nonce == n) = [c] :=
  staged_filter_singleton cfg env st n hown hreg hrep

/-- Witness for C8: two registered peers both report nonce `"c"`, and the
staged list keeps exactly the first report. -/
theorem C8_dedup_within_tick_witness :
    ∃ c, (peerListOf envDup stW2).find? (fun c => c.nonce == "c") = some c ∧
      (stagedOf cfgW envDup stW2).filter (fun c => c.nonce == "c") = [c] :=
  C8_dedup_within_tick cfgW envDup stW2 "c" (by decide) (by decide) (by decide)

/-! ### Lemmas towards the convergence claim -/

theorem wellKeyed_addPeer (cfg : Config) (st : ManagerState) (p : PeerInfo)
    (h : wellKeyed st = true) : wellKeyed (addPeer cfg st p) = true := by
  rcases addPeer_peers_cases cfg st p with hc | hc <;>
    unfold wellKeyed at * <;> rw [hc]
  · exact h
  · rw [List.all_append, h]
    simp [mkPeer]

theorem wellKeyed_foldl_addPeer (cfg : Config) (l : List PeerInfo)
    (st : ManagerState) (h : wellKeyed st = true) :
    wellKeyed (l.foldl (addPeer cfg) st) = true := by
  induction l generalizing st with
  | nil => exact h
  | cons c rest ih => exact ih _ (wellKeyed_addPeer cfg st c h)

theorem wellKeyed_updatePeers (cfg : Config) (env : String → List (Option PeerInfo))
    (st : ManagerState) (h : wellKeyed st = true) :
    wellKeyed (updatePeers cfg env st) = true := by
  unfold updatePeers
  apply wellKeyed_foldl_addPeer
  unfold wellKeyed at *
  rw [recomputeBest_peers]
  exact h

theorem mem_updatePeers_of_mem (cfg : Config) (env : String → List (Option PeerInfo))
    (st : ManagerState) (kv : String × Peer) (h : kv ∈ st.peers) :
    kv ∈ (updatePeers cfg env st).peers := by
  unfold updatePeers
  apply mem_foldl_addPeer_of_mem
  rw [recomputeBest_peers]
  exact h

theorem hasKeyB_updatePeers_of_hasKeyB (cfg : Config)
    (env : String → List (Option PeerInfo)) (st : ManagerState) (n : String)
    (h : hasKeyB st n = true) : hasKeyB (updatePeers cfg env st) n = true := by
  unfold updatePeers
  apply hasKeyB_foldl_addPeer_of_hasKeyB
  unfold hasKeyB at *
  rw [recomputeBest_peers]
  exact h

/-- Once a candidate passing the context-free checks appears in the
`addPeer` fold's input list, its nonce is a key of the resulting registry. -/
theorem hasKeyB_foldl_addPeer_of_mem_input (cfg : Config) (l : List PeerInfo)
    (st : ManagerState) (c : PeerInfo) (hc : c ∈ l)
    (hchecks : checksB cfg c = true) :
    hasKeyB (l.foldl (addPeer cfg) st) c.nonce = true := by
  induction l generalizing st with
  | nil => cases hc
  | cons d rest ih =>
      rcases List.mem_cons.mp hc with hcd | hmem
      · subst hcd
        exact hasKeyB_foldl_addPeer_of_hasKeyB cfg rest _ _
          (hasKeyB_addPeer_self cfg st c hchecks)
      · exact ih _ hmem

theorem exists_entry_of_hasKeyB (st : ManagerState) (n : String)
    (hkey : hasKeyB st n = true) (hwk : wellKeyed st = true) :
    ∃ kv ∈ st.peers, kv.2.options.nonce = n := by
  unfold hasKeyB at hkey
  rw [List.any_eq_true] at hkey
  obtain ⟨kv, hmem, hbeq⟩ := hkey
  unfold wellKeyed at hwk
  rw [List.all_eq_true] at hwk
  have hkv := hwk kv hmem
  refine ⟨kv, hmem, ?_⟩
  have h1 : kv.1 = kv.2.options.nonce := by simpa using hkv
  have h2 : kv.1 = n := by simpa using hbeq
  rw [← h1, h2]

/-- A candidate some registered peer's connection currently reports is in
the tick's flattened staging input. -/
theorem mem_peerListOf (env : String → List (Option PeerInfo)) (st : ManagerState)
    (kv : String × Peer) (c : PeerInfo) (hkv : kv ∈ st.peers)
    (hc : some c ∈ env kv.2.options.nonce) : c ∈ peerListOf env st := by
  unfold peerListOf
  rw [List.mem_filterMap]
  refine ⟨some c, ?_, rfl⟩
  rw [List.mem_flatten]
  exact ⟨env kv.2.options.nonce, List.mem_map.mpr ⟨kv, hkv, rfl⟩, hc⟩

/-- If some registered peer reports nonce `n`, all reports of `n` in this
tick pass the admission checks, and `n` is not the own nonce, then after the
tick `n` is registered — whether it was already present or just admitted. -/
theorem hasKeyB_updatePeers_of_reported (cfg : Config)
    (env : String → List (Option PeerInfo)) (st : ManagerState) (n : String)
    (hwk : wellKeyed st = true) (hown : (n == cfg.ownNonce) = false)
    (hrep : (peerListOf env st).any (fun c => c.nonce == n) = true)
    (hok : ∀ c ∈ peerListOf env st, c.nonce = n → checksB cfg c = true) :
    hasKeyB (updatePeers cfg env st) n = true := by
  rcases hkey : hasKeyB st n with _ | _
  case true => exact hasKeyB_updatePeers_of_hasKeyB cfg env st n hkey
  case false =>
  have hreg : st.peers.all (fun kv => !(kv.2.options.nonce == n)) = true := by
    rw [List.all_eq_true]
    intro kv hkv
    unfold wellKeyed at hwk
    rw [List.all_eq_true] at hwk
    have h1 : kv.1 = kv.2.options.nonce := by simpa using hwk kv hkv
    unfold hasKeyB at hkey
    rw [List.any_eq_false] at hkey
    have h2 := hkey kv hkv
    simp only [Bool.not_eq_true']
    rw [← h1]
    simpa using h2
  obtain ⟨c, hfind, hfilter⟩ :=
    staged_filter_singleton cfg env st n hown hreg hrep
  have hcmem : c ∈ stagedOf cfg env st := by
    have : c ∈ (stagedOf cfg env st).filter (fun c => c.nonce == n) := by
      rw [hfilter]
      exact List.mem_singleton.mpr rfl
    exact List.mem_of_mem_filter this
  have hcn : c.nonce = n := by
    have := List.find?_some hfind
    simpa using this
  have hchecks : checksB cfg c = true :=
    hok c (List.mem_of_find?_eq_some hfind) hcn
  unfold updatePeers
  rw [← hcn]
  exact hasKeyB_foldl_addPeer_of_mem_input cfg _ _ c hcmem hchecks

/-! ### Claim theorem: C7 -/

/-- Claim C7: gossip convergence — if registered peer A's reported list
includes B, B's reported list includes C, the topology is stable across
ticks (the same oracle `env` serves both ticks), and every report of B's
or C's nonce passes the admission checks, then after exactly two discovery
ticks the registry contains A (its entry untouched), B, and C. -/
theorem C7_convergence_two_ticks (cfg : Config)
    (env : String → List (Option PeerInfo)) (st : ManagerState)
    (nA nB nC : String) (A : Peer) (infoB infoC : PeerInfo)
    (hwk : wellKeyed st = true)
    (hmemA : (nA, A) ∈ st.peers)
    (hB : some infoB ∈ env nA) (hBn : infoB.nonce = nB)
    (hC : some infoC ∈ env nB) (hCn : infoC.nonce = nC)
    (hok1 : ∀ c ∈ peerListOf env st, c.nonce = nB → checksB cfg c = true)
    (hok2 : ∀ c ∈ peerListOf env (updatePeers cfg env st),
      c.nonce = nC → checksB cfg c = true) :
    (nA, A) ∈ (updatePeers cfg env (updatePeers cfg env st)).peers ∧
    hasKeyB (updatePeers cfg env (updatePeers cfg env st)) nA = true ∧
    hasKeyB (updatePeers cfg env (updatePeers cfg env st)) nB = true ∧
    hasKeyB (updatePeers cfg env (updatePeers cfg env st)) nC = true := by
  have hAopt : A.options.nonce = nA := by
    unfold wellKeyed at hwk
    rw [List.all_eq_true] at hwk
    have h := hwk (nA, A) hmemA
    have h' : nA = A.options.nonce := by simpa using h
    exact h'.symm
  have hBmem : infoB ∈ peerListOf env st := by
    apply mem_peerListOf env st (nA, A) infoB hmemA
    show some infoB ∈ env A.options.nonce
    rw [hAopt]
    exact hB
  have hchecksB : checksB cfg infoB = true := hok1 infoB hBmem hBn
  have hownB : (nB == cfg.ownNonce) = false := by
    have h := hchecksB
    simp only [checksB, Bool.and_eq_true, Bool.not_eq_true'] at h
    rw [← hBn]
    exact h.1.1
  have hrepB : (peerListOf env st).any (fun c => c.nonce == nB) = true := by
    rw [List.any_eq_true]
    exact ⟨infoB, hBmem, by simp [hBn]⟩
  have hkB1 : hasKeyB (updatePeers cfg env st) nB = true :=
    hasKeyB_updatePeers_of_reported cfg env st nB hwk hownB hrepB hok1
  have hwk1 : wellKeyed (updatePeers cfg env st) = true :=
    wellKeyed_updatePeers cfg env st hwk
  obtain ⟨kv, hkvmem, hkvopt⟩ :=
    exists_entry_of_hasKeyB (updatePeers cfg env st) nB hkB1 hwk1
  have hCmem : infoC ∈ peerListOf env (updatePeers cfg env st) := by
    apply mem_peerListOf env _ kv infoC hkvmem
    rw [hkvopt]
    exact hC
  have hchecksC : checksB cfg infoC = true := hok2 infoC hCmem hCn
  have hownC : (nC == cfg.ownNonce) = false := by
    have h := hchecksC
    simp only [checksB, Bool.and_eq_true, Bool.not_eq_true'] at h
    rw [← hCn]
    exact h.1.1
  have hrepC : (peerListOf env (updatePeers cfg env st)).any
      (fun c => c.nonce == nC) = true := by
    rw [List.any_eq_true]
    exact ⟨infoC, hCmem, by simp [hCn]⟩
  have hkC2 : hasKeyB (updatePeers cfg env (updatePeers cfg env st)) nC = true :=
    hasKeyB_updatePeers_of_reported cfg env _ nC hwk1 hownC hrepC hok2
  refine ⟨?_, ?_, ?_, hkC2⟩
  · exact mem_updatePeers_of_mem cfg env _ _
      (mem_updatePeers_of_mem cfg env st _ hmemA)
  · have h0 : hasKeyB st nA = true := by
      unfold hasKeyB
      rw [List.any_eq_true]
      exact ⟨(nA, A), hmemA, by simp⟩
    exact hasKeyB_updatePeers_of_hasKeyB cfg env _ nA
      (hasKeyB_updatePeers_of_hasKeyB cfg env st nA h0)
  · exact hasKeyB_updatePeers_of_hasKeyB cfg env _ nB hkB1

/-- Witness for C7: the concrete seed-only registry under the concrete
stable topology (seed reports b, b reports c) contains seed, b and c after
two ticks. -/
theorem C7_convergence_two_ticks_witness :
    ("seed", peerW "seed" none false) ∈ (updatePeers cfgW envW (updatePeers cfgW envW stW)).peers ∧
    hasKeyB (updatePeers cfgW envW (updatePeers cfgW envW stW)) "seed" = true ∧
    hasKeyB (updatePeers cfgW envW (updatePeers cfgW envW stW)) "b" = true ∧
    hasKeyB (updatePeers cfgW envW (updatePeers cfgW envW stW)) "c" = true :=
  C7_convergence_two_ticks cfgW envW stW "seed" "b" "c"
    (peerW "seed" none false) (infoW "b") (infoW "c")
    (by decide) (by decide) (by decide) (by decide) (by decide) (by decide)
    (by decide) (by decide)

end LiskArgus
